import Mathlib

/-!
Verification development for the `ipython_cell` plugin core
(`src/python/ipython_cell.py`): the cell segmenter
(`_get_cell_boundaries`, `_get_current_cell_boundaries`, `_get_next_cell`,
`_get_prev_cell`, `_get_rows_with_tag`, `_get_rows_with_marks`), the
terminal transport encoder (`filetertext`) and the socket send operation
(`sendterm_by_socket`).

External effects (vim evaluation of configuration variables, the mark
lookup of a buffer, the `re.search` regex engine in regex mode, and the
socket itself) are passed in as explicit parameters; machine strings are
modelled as Lean `String`/`List Char`, bytes as `Nat` below 256.
-/

/-- A line-break character of the Python regexes `[\r\n]` used throughout
`filetertext`. -/
def isBreak (c : Char) : Bool :=
  c = '\r' || c = '\n'

/-- The characters matched by CPython's `\s` character class (and stripped
by `str.strip()`): ASCII whitespace, the file/group/record/unit
separators, NEL, and the Unicode space separators. -/
def isPySpace (c : Char) : Bool :=
  c = ' ' || c = '\t' || c = '\n' || c = '\r' || c = '\x0b' || c = '\x0c' ||
  c = '\x1c' || c = '\x1d' || c = '\x1e' || c = '\x1f' || c = '\x85' ||
  c = '\xa0' || c = '\u1680' || c = '\u2000' || c = '\u2001' ||
  c = '\u2002' || c = '\u2003' || c = '\u2004' || c = '\u2005' ||
  c = '\u2006' || c = '\u2007' || c = '\u2008' || c = '\u2009' ||
  c = '\u200a' || c = '\u2028' || c = '\u2029' || c = '\u202f' ||
  c = '\u205f' || c = '\u3000'

/-- `re.sub("[\r\n]+$", "", text)`: removes the maximal trailing run of
line-break characters (the anchored pattern can only match a suffix, and
the greedy `+` together with `$` removes the whole trailing run). -/
def rstripBreaks (l : List Char) : List Char :=
  (l.reverse.dropWhile isBreak).reverse

/-- Worker for `collapseBreaks`; the flag records whether the previous
character was a line break (i.e. whether we are inside a run that has
already emitted its single replacement `'\n'`). -/
def collapseAux : Bool → List Char → List Char
  | _, [] => []
  | prevBreak, c :: cs =>
    if isBreak c then
      if prevBreak then collapseAux true cs
      else '\n' :: collapseAux true cs
    else c :: collapseAux false cs

/-- `re.sub("[\r\n]+", "\n", text)`: every maximal run of line-break
characters is replaced by a single `'\n'`. -/
def collapseBreaks (l : List Char) : List Char :=
  collapseAux false l

/-- `re.sub("[\r\n]", "\n\x15", text)`: every line-break character is
replaced by `'\n'` followed by the kill-line directive `'\x15'` (CTRL-U). -/
def insertKill (l : List Char) : List Char :=
  l.flatMap (fun c => if isBreak c then ['\n', '\x15'] else [c])

/-- The regex fragment `(.*)$` (no MULTILINE flag) applied to the text
`cs` that follows a line-break character: `.` matches every character
except `'\n'`, and `$` matches at the end of the string or just before a
final `'\n'`.  Hence the fragment matches iff `cs` contains no `'\n'`
(group = `cs`) or the only `'\n'` of `cs` is its final character
(group = `cs.dropLast`); otherwise there is no match at this position. -/
def matchRestDollar (cs : List Char) : Option (List Char) :=
  if cs.contains '\n' = false then some cs
  else if cs.getLast? = some '\n' && cs.dropLast.contains '\n' = false then
    some cs.dropLast
  else none

/-- `re.findall("[\r\n](.*)$", text)[0]` (as an `Option`): the group of
the leftmost match of the pattern.  The pattern starts with a line-break
character, so the scan tries `(.*)$` after each line break in turn, left
to right, and returns the first success. -/
def lastLineAfterBreak : List Char → Option (List Char)
  | [] => none
  | c :: cs =>
    if isBreak c then
      match matchRestDollar cs with
      | some g => some g
      | none => lastLineAfterBreak cs
    else lastLineAfterBreak cs

/-- `re.findall("^[\s\x15]", lastln)` is non-empty iff `lastln` starts
with a whitespace character or with the kill-line directive `'\x15'`. -/
def startsBlankOrKill (l : List Char) : Bool :=
  match l with
  | [] => false
  | c :: _ => isPySpace c || c = '\x15'

/-- `filetertext` on the character list of the input text (the body of
`src/python/ipython_cell.py:597-614`): strip the trailing line breaks,
collapse runs of line breaks, put the kill-line directive after every
remaining line break, and append a final `'\r'` when the extracted last
line starts with whitespace or a kill-line directive. -/
def filetertextData (text : List Char) : List Char :=
  let t1 := rstripBreaks text
  let t2 := collapseBreaks t1
  let t3 := insertKill t2
  let lastlnstartblank :=
    match lastLineAfterBreak t3 with
    | some lastln => startsBlankOrKill lastln
    | none => false
  if lastlnstartblank then t3 ++ ['\r'] else t3

/-- The transport encoder `filetertext` of `src/python/ipython_cell.py`. -/
def filetertext (text : String) : String :=
  ⟨filetertextData text.data⟩

-- sanity checks against a hand trace of the Python code
example : filetertext "a\n  b\nc" = "a\n\x15  b\n\x15c\r" := by decide
example : filetertext "a\n  b" = "a\n\x15  b\r" := by decide
example : filetertext "\n" = "" := by decide
example : filetertext "x" = "x" := by decide
example : filetertext "a\r\n\r\nb" = "a\n\x15b\r" := by decide

/-! ### Basic lemmas about the encoder pipeline -/

lemma dropWhile_of_all_not {p : Char → Bool} {l : List Char}
    (h : ∀ c ∈ l, p c = false) : l.dropWhile p = l := by
  cases l with
  | nil => rfl
  | cons c cs => simp [List.dropWhile, h c (by simp)]

lemma rstripBreaks_of_no_breaks {l : List Char}
    (h : ∀ c ∈ l, isBreak c = false) : rstripBreaks l = l := by
  unfold rstripBreaks
  rw [dropWhile_of_all_not (by intro c hc; exact h c (List.mem_reverse.mp hc)),
    List.reverse_reverse]

lemma collapseAux_of_no_breaks {l : List Char}
    (h : ∀ c ∈ l, isBreak c = false) : ∀ b, collapseAux b l = l := by
  induction l with
  | nil => intro b; rfl
  | cons c cs ih =>
    intro b
    simp only [collapseAux, h c (by simp)]
    simp only [Bool.false_eq_true, if_false]
    rw [ih (by intro x hx; exact h x (by simp [hx])) false]

lemma insertKill_of_no_breaks {l : List Char}
    (h : ∀ c ∈ l, isBreak c = false) : insertKill l = l := by
  induction l with
  | nil => rfl
  | cons c cs ih =>
    unfold insertKill at ih ⊢
    simp only [List.flatMap_cons, h c (by simp), Bool.false_eq_true, if_false]
    rw [ih (by intro x hx; exact h x (by simp [hx]))]
    rfl

lemma lastLineAfterBreak_of_no_breaks {l : List Char}
    (h : ∀ c ∈ l, isBreak c = false) : lastLineAfterBreak l = none := by
  induction l with
  | nil => rfl
  | cons c cs ih =>
    unfold lastLineAfterBreak
    simp only [h c (by simp), Bool.false_eq_true, if_false]
    exact ih (by intro x hx; exact h x (by simp [hx]))

lemma filetertextData_of_no_breaks {l : List Char}
    (h : ∀ c ∈ l, isBreak c = false) : filetertextData l = l := by
  simp only [filetertextData, collapseBreaks]
  rw [rstripBreaks_of_no_breaks h, collapseAux_of_no_breaks h false,
    insertKill_of_no_breaks h, lastLineAfterBreak_of_no_breaks h]
  simp

/-- C10: For every single-line input text (containing no line-break
characters) with no trailing whitespace, the transport encoder
`filetertext` returns the text unchanged (identity round-trip). -/
theorem C10_single_line_identity (s : String)
    (hline : ∀ c ∈ s.data, isBreak c = false)
    (htrail : ∀ c, s.data.getLast? = some c → isPySpace c = false) :
    filetertext s = s := by
  obtain ⟨d⟩ := s
  unfold filetertext
  simp only
  rw [filetertextData_of_no_breaks hline]

/-- Witness for C10 at the concrete single-line input `"hello"`. -/
theorem C10_witness :
    (∀ c ∈ ("hello" : String).data, isBreak c = false) ∧
      filetertext "hello" = "hello" :=
  ⟨by decide, C10_single_line_identity "hello" (by decide) (by decide)⟩

/-- C1 (counterexample): on the input formed by joining `["a", "  b", "c"]`
with newlines, the encoder does append a trailing submission directive
`'\r'`, contrary to the claim that none is appended when the last line has
no leading whitespace. -/
theorem C1_counterexample :
    filetertext "a\n  b\nc" = "a\n\x15  b\n\x15c\r" ∧
      ("a\n\x15  b\n\x15c\r" : String).data.getLast? = some '\r' := by
  decide

/-- C1 (amended): on the input formed by joining `["a", "  b", "c"]` with
newlines, the encoder inserts exactly two kill-line directives, one
between lines 1/2 and one between lines 2/3, and appends one trailing
submission directive `'\r'`, because after kill-directive insertion the
extracted final line starts with the kill-line directive. -/
theorem C1_amended_scenario :
    filetertext "a\n  b\nc" = "a\n\x15  b\n\x15c\r" ∧
      (filetertext "a\n  b\nc").data.count '\x15' = 2 ∧
      (filetertext "a\n  b\nc").data.getLast? = some '\r' := by
  decide

/-! ### Non-emptiness of the encoder output -/

lemma rstripBreaks_ne_nil {l : List Char}
    (h : ∃ c ∈ l, isBreak c = false) : rstripBreaks l ≠ [] := by
  obtain ⟨c, hc, hcb⟩ := h
  unfold rstripBreaks
  intro heq
  rw [List.reverse_eq_nil_iff, List.dropWhile_eq_nil_iff] at heq
  rw [heq c (List.mem_reverse.mpr hc)] at hcb
  exact Bool.true_eq_false.mp hcb

lemma collapseBreaks_ne_nil {l : List Char} (h : l ≠ []) :
    collapseBreaks l ≠ [] := by
  cases l with
  | nil => exact absurd rfl h
  | cons c cs =>
    unfold collapseBreaks collapseAux
    cases hb : isBreak c <;> simp [hb]

lemma insertKill_ne_nil {l : List Char} (h : l ≠ []) : insertKill l ≠ [] := by
  cases l with
  | nil => exact absurd rfl h
  | cons c cs =>
    unfold insertKill
    cases hb : isBreak c <;> simp [hb]

lemma rstripBreaks_of_all_breaks {l : List Char}
    (h : ∀ c ∈ l, isBreak c = true) : rstripBreaks l = [] := by
  unfold rstripBreaks
  rw [List.dropWhile_eq_nil_iff.mpr
    (by intro x hx; exact h x (List.mem_reverse.mp hx))]
  rfl

/-- C3 (counterexample): the input `"\n"` is non-empty, yet the encoder
returns the empty payload for it (the trailing line break is stripped and
nothing remains). -/
theorem C3_counterexample :
    ("\n" : String) ≠ "" ∧ filetertext "\n" = "" := by decide

/-- C3 (amended): the encoder returns a non-empty payload for every input
containing at least one character that is not a line break, and the empty
payload for every input consisting solely of line-break characters (in
particular for the empty input). -/
theorem C3_amended_nonempty (s : String) :
    ((∃ c ∈ s.data, isBreak c = false) → filetertext s ≠ "") ∧
      ((∀ c ∈ s.data, isBreak c = true) → filetertext s = "") := by
  constructor
  · intro h heq
    have h3 : filetertextData s.data ≠ [] := by
      have h1 := rstripBreaks_ne_nil h
      have h2 := collapseBreaks_ne_nil h1
      have h3 := insertKill_ne_nil h2
      simp only [filetertextData]
      split
      · simp
      · exact h3
    apply h3
    have := congrArg String.data heq
    simpa [filetertext] using this
  · intro h
    have h1 : filetertextData s.data = [] := by
      simp only [filetertextData, rstripBreaks_of_all_breaks h]
      rfl
    simp only [filetertext, h1]

/-- Witness for C3 (amended) at the inputs `"x"` and `"\r\n"`. -/
theorem C3_witness :
    filetertext "x" ≠ "" ∧ filetertext "\r\n" = "" :=
  ⟨(C3_amended_nonempty "x").1 (by decide),
    (C3_amended_nonempty "\r\n").2 (by decide)⟩

/-! ### C2: every newline of the payload is followed by the kill directive,
and every multi-line payload gets the trailing submission directive -/

lemma isBreak_false_ne_newline {c : Char} (h : isBreak c = false) :
    c ≠ '\n' := by
  intro he
  subst he
  simp [isBreak] at h

lemma insertKill_kill_after_newline {l : List Char} :
    ∀ i, (insertKill l)[i]? = some '\n' →
      (insertKill l)[i + 1]? = some '\x15' := by
  induction l with
  | nil => intro i h; simp [insertKill] at h
  | cons c cs ih =>
    intro i h
    cases hb : isBreak c with
    | true =>
      rw [show insertKill (c :: cs) = '\n' :: '\x15' :: insertKill cs from by
        simp [insertKill, hb]] at h ⊢
      match i with
      | 0 => simp
      | 1 => simp at h
      | (n + 2) =>
        simp only [List.getElem?_cons_succ] at h ⊢
        exact ih n h
    | false =>
      rw [show insertKill (c :: cs) = c :: insertKill cs from by
        simp [insertKill, hb]] at h ⊢
      match i with
      | 0 =>
        rw [List.getElem?_cons_zero] at h
        exact absurd (Option.some.inj h) (isBreak_false_ne_newline hb)
      | (n + 1) =>
        simp only [List.getElem?_cons_succ] at h ⊢
        exact ih n h

lemma insertKill_getLast_ne_newline {l : List Char} :
    ∀ x, (insertKill l).getLast? = some x → x ≠ '\n' := by
  induction l with
  | nil => intro x h; simp [insertKill] at h
  | cons c cs ih =>
    intro x h
    cases hcs : insertKill cs with
    | nil =>
      cases hb : isBreak c with
      | true =>
        rw [show insertKill (c :: cs) = '\n' :: '\x15' :: insertKill cs from by
          simp [insertKill, hb], hcs] at h
        simp at h
        subst h
        decide
      | false =>
        rw [show insertKill (c :: cs) = c :: insertKill cs from by
          simp [insertKill, hb], hcs] at h
        simp at h
        subst h
        exact isBreak_false_ne_newline hb
    | cons d ds =>
      have hrw : (insertKill (c :: cs)).getLast? = (insertKill cs).getLast? := by
        rw [show insertKill (c :: cs)
            = (if isBreak c then ['\n', '\x15'] else [c]) ++ insertKill cs from by
          simp [insertKill]]
        exact List.getLast?_append_of_ne_nil _ (by rw [hcs]; simp)
      rw [hrw] at h
      exact ih x h

lemma newline_mem_insertKill {l : List Char}
    (h : ∃ b ∈ l, isBreak b = true) : '\n' ∈ insertKill l := by
  obtain ⟨b, hb, hbb⟩ := h
  exact List.mem_flatMap_of_mem hb (by simp [hbb])

lemma matchRestDollar_of_no_newline {cs : List Char} (h : '\n' ∉ cs) :
    matchRestDollar cs = some cs := by
  simp [matchRestDollar, h]

lemma matchRestDollar_of_newline_mid {cs : List Char} (h1 : '\n' ∈ cs)
    (h2 : cs.getLast? ≠ some '\n') : matchRestDollar cs = none := by
  simp [matchRestDollar, h1, h2]

lemma lastLineAfterBreak_cons_of_break {c : Char} {cs : List Char}
    (h : isBreak c = true) :
    lastLineAfterBreak (c :: cs) =
      match matchRestDollar cs with
      | some g => some g
      | none => lastLineAfterBreak cs := by
  simp [lastLineAfterBreak, h]

lemma lastLineAfterBreak_cons_of_nonbreak {c : Char} {cs : List Char}
    (h : isBreak c = false) :
    lastLineAfterBreak (c :: cs) = lastLineAfterBreak cs := by
  simp [lastLineAfterBreak, h]

lemma lastLineAfterBreak_insertKill {l : List Char} :
    (∃ b ∈ l, isBreak b = true) →
      ∃ g, lastLineAfterBreak (insertKill l) = some ('\x15' :: g) := by
  induction l with
  | nil => intro h; simp at h
  | cons c cs ih =>
    intro h
    cases hb : isBreak c with
    | true =>
      rw [show insertKill (c :: cs) = '\n' :: '\x15' :: insertKill cs from by
        simp [insertKill, hb]]
      rw [lastLineAfterBreak_cons_of_break (by decide)]
      by_cases hcs : ∃ b ∈ cs, isBreak b = true
      · have hn : '\n' ∈ insertKill cs := newline_mem_insertKill hcs
        have hn2 : '\n' ∈ '\x15' :: insertKill cs := List.mem_cons_of_mem _ hn
        have hne : insertKill cs ≠ [] := List.ne_nil_of_mem hn
        have hlast : ('\x15' :: insertKill cs).getLast?
            = (insertKill cs).getLast? := by
          rw [show ('\x15' :: insertKill cs) = ['\x15'] ++ insertKill cs from rfl]
          exact List.getLast?_append_of_ne_nil _ hne
        have hy := List.getLast?_eq_getLast_of_ne_nil hne
        have hyne : (insertKill cs).getLast hne ≠ '\n' :=
          insertKill_getLast_ne_newline _ hy
        have hgl : ('\x15' :: insertKill cs).getLast? ≠ some '\n' := by
          rw [hlast, hy]
          intro he
          exact hyne (Option.some.inj he)
        rw [matchRestDollar_of_newline_mid hn2 hgl]
        show ∃ g, lastLineAfterBreak ('\x15' :: insertKill cs) = some ('\x15' :: g)
        rw [lastLineAfterBreak_cons_of_nonbreak (by decide)]
        exact ih hcs
      · push_neg at hcs
        have hnob : ∀ b ∈ cs, isBreak b = false := by
          intro b hbm
          cases hbv : isBreak b with
          | true => exact absurd hbv (hcs b hbm)
          | false => rfl
        rw [insertKill_of_no_breaks hnob]
        have hni : '\n' ∉ '\x15' :: cs := by
          intro hmem
          rcases List.mem_cons.mp hmem with h1 | h1
          · exact absurd h1 (by decide)
          · have hb2 := hnob _ h1
            simp [isBreak] at hb2
        rw [matchRestDollar_of_no_newline hni]
        exact ⟨cs, rfl⟩
    | false =>
      rw [show insertKill (c :: cs) = c :: insertKill cs from by
        simp [insertKill, hb]]
      rw [lastLineAfterBreak_cons_of_nonbreak hb]
      refine ih ?_
      obtain ⟨b, hbm, hbb⟩ := h
      rcases List.mem_cons.mp hbm with h1 | h1
      · subst h1; rw [hbb] at hb; exact absurd hb (by simp)
      · exact ⟨b, h1, hbb⟩

lemma filetertextData_eq_or (l : List Char) :
    filetertextData l = insertKill (collapseBreaks (rstripBreaks l)) ∨
      filetertextData l
        = insertKill (collapseBreaks (rstripBreaks l)) ++ ['\r'] := by
  simp only [filetertextData]
  split
  · right; rfl
  · left; rfl

lemma killAfterNewline_append_cr {l : List Char}
    (hkill : ∀ i, l[i]? = some '\n' → l[i + 1]? = some '\x15') :
    ∀ i, (l ++ ['\r'])[i]? = some '\n' →
      (l ++ ['\r'])[i + 1]? = some '\x15' := by
  intro i h
  rcases Nat.lt_trichotomy i l.length with hlt | heq | hgt
  · rw [List.getElem?_append_left hlt] at h
    have h2 := hkill i h
    have hlen : i + 1 < l.length := (List.getElem?_eq_some_iff.mp h2).1
    rw [List.getElem?_append_left hlen]
    exact h2
  · rw [heq, List.getElem?_concat_length] at h
    exact absurd (Option.some.inj h) (by decide)
  · rw [List.getElem?_eq_none (by simp; omega)] at h
    exact absurd h (by simp)

/-- C2: in the output of the transport encoder `filetertext`, every
newline is immediately followed by the kill-line directive `'\x15'`;
consequently, for every input whose normalized form (after stripping the
trailing line breaks and collapsing runs) still contains an internal line
break, the extracted final line starts with the kill directive, the
indentation check of step 4 succeeds, and the trailing carriage-return
submission directive is appended — regardless of whether the original
last line was indented. -/
theorem C2_kill_after_every_newline :
    (∀ (text : String) (i : Nat),
        (filetertext text).data[i]? = some '\n' →
          (filetertext text).data[i + 1]? = some '\x15') ∧
      ∀ text : String,
        '\n' ∈ collapseBreaks (rstripBreaks text.data) →
          (filetertext text).data.getLast? = some '\r' := by
  constructor
  · intro text i h
    have hbase := insertKill_kill_after_newline
      (l := collapseBreaks (rstripBreaks text.data))
    simp only [filetertext] at h ⊢
    rcases filetertextData_eq_or text.data with he | he <;> rw [he] at h ⊢
    · exact hbase i h
    · exact killAfterNewline_append_cr hbase i h
  · intro text hn
    have hex : ∃ b ∈ collapseBreaks (rstripBreaks text.data),
        isBreak b = true := ⟨'\n', hn, by decide⟩
    obtain ⟨g, hg⟩ := lastLineAfterBreak_insertKill hex
    simp only [filetertext, filetertextData, hg]
    rw [if_pos (by simp [startsBlankOrKill])]
    exact List.getLast?_concat _

/-- Witness for C2 at the concrete input `"a\nb"` (whose last line is not
indented): the payload is `"a\n\x15b\r"`. -/
theorem C2_witness :
    (filetertext "a\nb").data[2]? = some '\x15' ∧
      (filetertext "a\nb").data.getLast? = some '\r' :=
  ⟨C2_kill_after_every_newline.1 "a\nb" 1 (by decide),
    C2_kill_after_every_newline.2 "a\nb" (by decide)⟩

/-! ### The segmenter: boundary computation and navigation -/

/-- Python `str.strip()`: remove leading and trailing whitespace. -/
def pyStrip (s : String) : String :=
  ⟨((s.data.dropWhile isPySpace).reverse.dropWhile isPySpace).reverse⟩

/-- One insertion step of `pySortedSet`: insert `x` into an already
strictly sorted list, skipping it when it is already present. -/
def insertSortedDedup (x : Int) : List Int → List Int
  | [] => [x]
  | y :: ys =>
    if x < y then x :: y :: ys
    else if x = y then y :: ys
    else y :: insertSortedDedup x ys

/-- Python `sorted(set(l))` for a list of integers: the strictly
ascending list with exactly the members of `l`. -/
def pySortedSet (l : List Int) : List Int :=
  l.foldr insertSortedDedup []

/-- The scanning loop of `_get_current_cell_boundaries`
(`src/python/ipython_cell.py:448-454`): `start_row` (unset = `none`) is
overwritten by every boundary `≤ current_row`; the loop breaks at the
first boundary `> current_row`, recording it as `next_cell_row`. -/
def currentCellLoop (currentRow : Int) :
    List Int → Option Int → Option Int × Option Int
  | [], startRow => (startRow, none)
  | boundary :: rest, startRow =>
    if boundary ≤ currentRow then
      currentCellLoop currentRow rest (some boundary)
    else (startRow, some boundary)

/-- `_get_current_cell_boundaries`: `none` when no boundary is
`≤ current_row` (the Python code would crash on the unset local
`start_row`); otherwise `some (start_row, end_row)`, where an `end_row`
of `none` is the Python `None` meaning "end of file". -/
def _get_current_cell_boundaries (currentRow : Int)
    (cellBoundaries : List Int) : Option (Int × Option Int) :=
  match currentCellLoop currentRow cellBoundaries none with
  | (none, _) => none
  | (some startRow, nextCellRow) =>
    some (startRow, nextCellRow.map (fun x => x - 1))

/-- The scanning loop of `_get_next_cell`
(`src/python/ipython_cell.py:482-486`): break at the first boundary
strictly greater than `current_row`. -/
def nextCellLoop (currentRow : Int) : List Int → Option Int
  | [] => none
  | boundary :: rest =>
    if boundary > currentRow then some boundary
    else nextCellLoop currentRow rest

/-- `_get_next_cell`: the first boundary `> current_row` in list order,
or `current_row` itself when there is none. -/
def _get_next_cell (currentRow : Int) (cellBoundaries : List Int) : Int :=
  (nextCellLoop currentRow cellBoundaries).getD currentRow

/-- The scanning loop of `_get_prev_cell`
(`src/python/ipython_cell.py:515-520`): every boundary `< current_row`
overwrites `prev_cell_row`; the loop breaks at the first boundary
`≥ current_row`. -/
def prevCellLoop (currentRow : Int) : List Int → Option Int → Option Int
  | [], prev => prev
  | boundary :: rest, prev =>
    if boundary < currentRow then prevCellLoop currentRow rest (some boundary)
    else prev

/-- `_get_prev_cell`: the last boundary `< current_row` seen before the
first boundary `≥ current_row`, or `current_row` when there is none. -/
def _get_prev_cell (currentRow : Int) (cellBoundaries : List Int) : Int :=
  (prevCellLoop currentRow cellBoundaries none).getD currentRow

/-- `tag.isPrefixOf line` on raw characters, for `pyIn`. -/
def prefixOf : List Char → List Char → Bool
  | [], _ => true
  | _ :: _, [] => false
  | a :: as, b :: bs => a = b && prefixOf as bs

/-- Substring containment: `tag` occurs contiguously somewhere in the
second list. -/
def substrContains (tag : List Char) : List Char → Bool
  | [] => tag.isEmpty
  | c :: rest => prefixOf tag (c :: rest) || substrContains tag rest

/-- The Python membership test `tag in line` on strings. -/
def pyIn (tag line : String) : Bool :=
  substrContains tag.data line.data

/-- The per-tag test of `_get_rows_with_tag`
(`src/python/ipython_cell.py:550-554`): literal substring containment, or
the abstract regex engine `search` when regex mode is on. -/
def tagFound (useRegex : Bool) (search : String → String → Bool)
    (tag line : String) : Bool :=
  if useRegex = false then pyIn tag line else search tag line

/-- The `enumerate` loop of `_get_rows_with_tag`: `i` is the 0-based line
index; a line whose first matching tag is found (the `break` of the inner
loop = `List.any`) contributes the single row `i + 1`. -/
def rowsWithTagAux (tags : List String) (useRegex : Bool)
    (search : String → String → Bool) : Nat → List String → List Int
  | _, [] => []
  | i, line :: rest =>
    if tags.any (fun tag => tagFound useRegex search tag line) then
      ((i : Int) + 1) :: rowsWithTagAux tags useRegex search (i + 1) rest
    else rowsWithTagAux tags useRegex search (i + 1) rest

/-- `_get_rows_with_tag` of `src/python/ipython_cell.py` (the
`isinstance` normalisation of a single string to a one-element list is
modelled by taking the list form). -/
def _get_rows_with_tag (buffer : List String) (tags : List String)
    (useRegex : Bool) (search : String → String → Bool) : List Int :=
  rowsWithTagAux tags useRegex search 0 buffer

/-- `_get_rows_with_marks`: `markOf` is the external `buffer.mark` lookup
(`None`, or a `(row, col)` pair with row `0` meaning "unset"). -/
def _get_rows_with_marks (validMarks : String)
    (markOf : Char → Option (Int × Int)) : List Int :=
  validMarks.data.filterMap (fun mark =>
    match markOf mark with
    | some markLoc => if markLoc.1 ≠ 0 then some markLoc.1 else none
    | none => none)

/-- Python `str.lower()` (ASCII range; the regex-mode option values it is
compared against — `'1'`, `'y'`, `'yes'`, `'t'`, `'true'` — are ASCII). -/
def pyLower (s : String) : String :=
  ⟨s.data.map (fun c =>
    if 'A' ≤ c && c ≤ 'Z' then Char.ofNat (c.toNat + 32) else c)⟩

/-- `_get_cell_boundaries` of `src/python/ipython_cell.py:397-427`. The
configuration reads (`vim.eval`) are parameters: `delimiter` is
`g:ipython_cell_delimit_cells_by`, `validMarks` is
`g:ipython_cell_valid_marks`, `tags` is `g:ipython_cell_tag`,
`regexOption` is `g:ipython_cell_regex`; `search` abstracts `re.search`.
The error branch (message printed, plain `return`) is `none`; otherwise
the boundary list, extended with row 1 when `autoIncludeFirstLine`, is
returned as `sorted(set(...))`. -/
def _get_cell_boundaries (buffer : List String) (delimiter : String)
    (validMarks : String) (markOf : Char → Option (Int × Int))
    (tags : List String) (regexOption : String)
    (search : String → String → Bool) (autoIncludeFirstLine : Bool) :
    Option (List Int) :=
  if pyStrip delimiter = "marks" then
    some (pySortedSet (_get_rows_with_marks (pyStrip validMarks) markOf ++
      (if autoIncludeFirstLine then [1] else [])))
  else if pyStrip delimiter = "tags" then
    let useRegex :=
      ["1", "y", "yes", "t", "true"].contains (pyLower (pyStrip regexOption))
    some (pySortedSet (_get_rows_with_tag buffer tags useRegex search ++
      (if autoIncludeFirstLine then [1] else [])))
  else none

-- sanity checks against a hand trace of the Python code
example :
    _get_cell_boundaries ["x", "# cell", "y", "# cell", "z"] "tags" ""
      (fun _ => none) ["# cell"] "0" (fun _ _ => false) true
      = some [1, 2, 4] := by decide
example :
    _get_cell_boundaries [] "marks" "abc"
      (fun m => if m = 'a' then some (5, 0) else
        if m = 'b' then some (0, 0) else none)
      [] "0" (fun _ _ => false) true = some [1, 5] := by decide
example : _get_current_cell_boundaries 5 [1, 4, 7] = some (4, some 6) := by
  decide
example : _get_current_cell_boundaries 4 [1, 4, 7] = some (4, some 6) := by
  decide
example : _get_current_cell_boundaries 8 [1, 4, 7] = some (7, none) := by
  decide
example : _get_current_cell_boundaries 0 [1, 4, 7] = none := by decide
example : _get_next_cell 5 [1, 4, 7] = 7 := by decide
example : _get_next_cell 7 [1, 4, 7] = 7 := by decide
example : _get_prev_cell 5 [1, 4, 7] = 4 := by decide
example : _get_prev_cell 4 [1, 4, 7] = 1 := by decide
example : _get_prev_cell 1 [1, 4, 7] = 1 := by decide

/-- C4: for every strategy value that (after the `strip()` normalisation)
is neither `"marks"` nor `"tags"`, computing the boundary set fails: the
unrecognized strategy is reported (`_error`) and the function returns
without a value (`none`), so no partial boundary set is produced. -/
theorem C4_invalid_strategy_error (buffer : List String) (delimiter : String)
    (validMarks : String) (markOf : Char → Option (Int × Int))
    (tags : List String) (regexOption : String)
    (search : String → String → Bool) (autoIncludeFirstLine : Bool)
    (h1 : pyStrip delimiter ≠ "marks") (h2 : pyStrip delimiter ≠ "tags") :
    _get_cell_boundaries buffer delimiter validMarks markOf tags regexOption
      search autoIncludeFirstLine = none := by
  simp [_get_cell_boundaries, h1, h2]

/-- Witness for C4 at the concrete strategy value `"lines"`. -/
theorem C4_witness :
    pyStrip "lines" ≠ "marks" ∧ pyStrip "lines" ≠ "tags" ∧
      _get_cell_boundaries ["x"] "lines" "" (fun _ => none) [] "0"
        (fun _ _ => false) true = none :=
  ⟨by decide, by decide,
    C4_invalid_strategy_error ["x"] "lines" "" (fun _ => none) [] "0"
      (fun _ _ => false) true (by decide) (by decide)⟩

/-! ### Lemmas about sorted boundary lists -/

lemma getLast?_cons_or (b : Int) (t : List Int) :
    (b :: t).getLast? = t.getLast?.or (some b) := by
  cases t with
  | nil => rfl
  | cons x xs =>
    rw [List.getLast?_cons_cons]
    rw [List.getLast?_eq_getLast_of_ne_nil (l := x :: xs) (by simp)]
    rfl

lemma sorted_le_getLast {l : List Int} (hs : l.Sorted (· ≤ ·)) :
    ∀ x ∈ l, ∀ y, l.getLast? = some y → x ≤ y := by
  induction l with
  | nil => intro x hx; simp at hx
  | cons c cs ih =>
    intro x hx y hy
    rcases List.sorted_cons.mp hs with ⟨hc, hcs⟩
    cases hcse : cs with
    | nil =>
      subst hcse
      simp at hy hx
      omega
    | cons d ds =>
      subst hcse
      rw [List.getLast?_cons_cons] at hy
      rcases List.mem_cons.mp hx with h1 | h1
      · subst h1
        have hd : y ∈ d :: ds := by
          have hgl := List.getLast?_eq_getLast_of_ne_nil (l := d :: ds) (by simp)
          rw [hgl] at hy
          rw [show y = (d :: ds).getLast (by simp) from (Option.some.inj hy).symm]
          exact List.getLast_mem _
        exact hc y hd
      · exact ih hcs x h1 y hy

lemma sorted_cons_head_le {l : List Int} {m : Int} (hs : (m :: l).Sorted (· ≤ ·)) :
    ∀ x ∈ m :: l, m ≤ x := by
  intro x hx
  rcases List.mem_cons.mp hx with h1 | h1
  · exact le_of_eq h1.symm
  · exact (List.sorted_cons.mp hs).1 x h1

lemma sorted_dropWhile_not {p : Int → Bool}
    (hp : ∀ x y : Int, x ≤ y → p y = true → p x = true) :
    ∀ l : List Int, l.Sorted (· ≤ ·) → ∀ b ∈ l.dropWhile p, p b = false := by
  intro l
  induction l with
  | nil => intro _ b hb; simp at hb
  | cons c cs ih =>
    intro hs b hb
    rcases List.sorted_cons.mp hs with ⟨hc, hcs⟩
    by_cases hpc : p c = true
    · rw [List.dropWhile_cons_of_pos hpc] at hb
      exact ih hcs b hb
    · rw [List.dropWhile_cons_of_neg hpc] at hb
      rcases List.mem_cons.mp hb with h1 | h1
      · subst h1
        cases hv : p b with
        | false => rfl
        | true => exact absurd hv hpc
      · cases hv : p b with
        | false => rfl
        | true => exact absurd (hp c b (hc b h1) hv) hpc

lemma or_some_or (x : Option Int) (b : Int) (acc : Option Int) :
    (x.or (some b)).or acc = x.or (some b) := by
  cases x <;> rfl

lemma currentCellLoop_eq (r : Int) :
    ∀ (B : List Int) (acc : Option Int),
      currentCellLoop r B acc =
        ((B.takeWhile (fun b => b ≤ r)).getLast?.or acc,
          (B.dropWhile (fun b => b ≤ r)).head?) := by
  intro B
  induction B with
  | nil => intro acc; rfl
  | cons b bs ih =>
    intro acc
    by_cases hb : b ≤ r
    · rw [show currentCellLoop r (b :: bs) acc = currentCellLoop r bs (some b)
        from by simp [currentCellLoop, hb]]
      rw [ih (some b), List.takeWhile_cons_of_pos (by simpa using hb),
        List.dropWhile_cons_of_pos (by simpa using hb), getLast?_cons_or,
        or_some_or]
    · rw [show currentCellLoop r (b :: bs) acc = (acc, some b)
        from by simp [currentCellLoop, hb]]
      rw [List.takeWhile_cons_of_neg (by simpa using hb),
        List.dropWhile_cons_of_neg (by simpa using hb)]
      rfl

lemma nextCellLoop_eq (r : Int) :
    ∀ B : List Int, nextCellLoop r B = (B.dropWhile (fun b => b ≤ r)).head? := by
  intro B
  induction B with
  | nil => rfl
  | cons b bs ih =>
    by_cases hb : b ≤ r
    · rw [show nextCellLoop r (b :: bs) = nextCellLoop r bs from by
        simp [nextCellLoop]; omega]
      rw [ih, List.dropWhile_cons_of_pos (by simpa using hb)]
    · rw [show nextCellLoop r (b :: bs) = some b from by
        simp [nextCellLoop]; omega]
      rw [List.dropWhile_cons_of_neg (by simpa using hb)]
      rfl

lemma prevCellLoop_eq (r : Int) :
    ∀ (B : List Int) (acc : Option Int),
      prevCellLoop r B acc =
        (B.takeWhile (fun b => b < r)).getLast?.or acc := by
  intro B
  induction B with
  | nil => intro acc; rfl
  | cons b bs ih =>
    intro acc
    by_cases hb : b < r
    · rw [show prevCellLoop r (b :: bs) acc = prevCellLoop r bs (some b)
        from by simp [prevCellLoop, hb]]
      rw [ih (some b), List.takeWhile_cons_of_pos (by simpa using hb),
        getLast?_cons_or, or_some_or]
    · rw [show prevCellLoop r (b :: bs) acc = acc
        from by simp [prevCellLoop, hb]]
      rw [List.takeWhile_cons_of_neg (by simpa using hb)]
      rfl

lemma sorted_takeWhile_le {B : List Int} {p : Int → Bool}
    (hsorted : B.Sorted (· ≤ ·)) : (B.takeWhile p).Sorted (· ≤ ·) :=
  hsorted.sublist (List.takeWhile_sublist p)

lemma sorted_dropWhile_sorted {B : List Int} {p : Int → Bool}
    (hsorted : B.Sorted (· ≤ ·)) : (B.dropWhile p).Sorted (· ≤ ·) :=
  hsorted.sublist (List.dropWhile_sublist p)

lemma decide_le_mono (r : Int) :
    ∀ x y : Int, x ≤ y → decide (y ≤ r) = true → decide (x ≤ r) = true := by
  intro x y hxy hy
  simp at hy ⊢
  omega

lemma decide_lt_mono (r : Int) :
    ∀ x y : Int, x ≤ y → decide (y < r) = true → decide (x < r) = true := by
  intro x y hxy hy
  simp at hy ⊢
  omega

/-- C5: for every sorted boundary list `B` and row `r` with some member of
`B` at most `r`, `_get_current_cell_boundaries` succeeds: `start_row` is
the greatest member of `B` that is `≤ r` (so an exact boundary hit becomes
the start of its own cell), and `end_row` is the smallest member of `B`
strictly greater than `r` minus one, or the end-of-document sentinel
(`none`) when no member of `B` exceeds `r`. -/
theorem C5_current_cell_boundaries (B : List Int) (r : Int)
    (hsorted : B.Sorted (· ≤ ·)) (hex : ∃ b ∈ B, b ≤ r) :
    ∃ s e, _get_current_cell_boundaries r B = some (s, e) ∧
      s ∈ B ∧ s ≤ r ∧ (∀ b ∈ B, b ≤ r → b ≤ s) ∧
      ((∀ b ∈ B, b ≤ r) → e = none) ∧
      ∀ b ∈ B, r < b →
        ∃ m ∈ B, r < m ∧ (∀ x ∈ B, r < x → m ≤ x) ∧ e = some (m - 1) := by
  obtain ⟨b0, hb0m, hb0le⟩ := hex
  have htake_ne : B.takeWhile (fun b => b ≤ r) ≠ [] := by
    cases B with
    | nil => simp at hb0m
    | cons c cs =>
      have hcle : c ≤ r := le_trans (sorted_cons_head_le hsorted b0 hb0m) hb0le
      rw [List.takeWhile_cons_of_pos (by simpa using hcle)]
      simp
  have hTs := List.getLast?_eq_getLast_of_ne_nil htake_ne
  refine ⟨(B.takeWhile (fun b => b ≤ r)).getLast htake_ne,
    ((B.dropWhile (fun b => b ≤ r)).head?).map (fun x => x - 1), ?_, ?_, ?_, ?_, ?_, ?_⟩
  · unfold _get_current_cell_boundaries
    rw [currentCellLoop_eq, hTs]
    rfl
  · exact (List.takeWhile_sublist _).subset (List.getLast_mem htake_ne)
  · have := List.mem_takeWhile_imp (List.getLast_mem htake_ne)
    simpa using this
  · intro b hb hble
    rcases List.mem_append.mp
        ((List.takeWhile_append_dropWhile (p := fun b => decide (b ≤ r))
          (l := B)) ▸ hb) with hmem | hmem
    · exact sorted_le_getLast (sorted_takeWhile_le hsorted) b hmem _ hTs
    · have := sorted_dropWhile_not (decide_le_mono r) B hsorted b hmem
      simp at this
      omega
  · intro hall
    have hD : B.dropWhile (fun b => b ≤ r) = [] :=
      List.dropWhile_eq_nil_iff.mpr (fun x hx => by simpa using hall x hx)
    rw [hD]
    rfl
  · intro b hb hrb
    cases hD : B.dropWhile (fun b => b ≤ r) with
    | nil =>
      have := List.dropWhile_eq_nil_iff.mp hD b hb
      simp at this
      omega
    | cons m rest =>
      have hmB : m ∈ B :=
        (List.dropWhile_sublist _).subset (by rw [hD]; simp)
      have hrm : r < m := by
        have := sorted_dropWhile_not (decide_le_mono r) B hsorted m
          (by rw [hD]; simp)
        simp at this
        omega
      refine ⟨m, hmB, hrm, ?_, by simp [hD]⟩
      intro x hx hrx
      rcases List.mem_append.mp
          ((List.takeWhile_append_dropWhile (p := fun b => decide (b ≤ r))
            (l := B)) ▸ hx) with hmem | hmem
      · have := List.mem_takeWhile_imp hmem
        simp at this
        omega
      · rw [hD] at hmem
        have hsD : (m :: rest).Sorted (· ≤ ·) := hD ▸ sorted_dropWhile_sorted hsorted
        exact sorted_cons_head_le hsD x hmem

/-- Witness for C5 at `B = [1, 4, 7]`, `r = 5` (the current cell is rows
4 to 6). -/
theorem C5_witness :
    ∃ s e, _get_current_cell_boundaries 5 [1, 4, 7] = some (s, e) ∧
      s ∈ ([1, 4, 7] : List Int) ∧ s ≤ 5 ∧
      (∀ b ∈ ([1, 4, 7] : List Int), b ≤ 5 → b ≤ s) ∧
      ((∀ b ∈ ([1, 4, 7] : List Int), b ≤ 5) → e = none) ∧
      ∀ b ∈ ([1, 4, 7] : List Int), 5 < b →
        ∃ m ∈ ([1, 4, 7] : List Int), 5 < m ∧
          (∀ x ∈ ([1, 4, 7] : List Int), 5 < x → m ≤ x) ∧
          e = some (m - 1) :=
  C5_current_cell_boundaries [1, 4, 7] 5 (by decide) (by decide)

/-- C6: for every sorted boundary list `B` and row `r`, `_get_prev_cell`
returns the greatest member of `B` strictly less than `r` (the start of
the current cell when `r` is not on a boundary, the true previous cell's
start when it is), and `r` unchanged when no member of `B` is below
`r`. -/
theorem C6_prev_cell (B : List Int) (r : Int) (hsorted : B.Sorted (· ≤ ·)) :
    ((∃ b ∈ B, b < r) →
      ∃ m ∈ B, _get_prev_cell r B = m ∧ m < r ∧ ∀ x ∈ B, x < r → x ≤ m) ∧
      ((∀ b ∈ B, r ≤ b) → _get_prev_cell r B = r) := by
  constructor
  · intro hex
    obtain ⟨b0, hb0m, hb0lt⟩ := hex
    have htake_ne : B.takeWhile (fun b => b < r) ≠ [] := by
      cases B with
      | nil => simp at hb0m
      | cons c cs =>
        have hclt : c < r :=
          lt_of_le_of_lt (sorted_cons_head_le hsorted b0 hb0m) hb0lt
        rw [List.takeWhile_cons_of_pos (by simpa using hclt)]
        simp
    have hTs := List.getLast?_eq_getLast_of_ne_nil htake_ne
    refine ⟨(B.takeWhile (fun b => b < r)).getLast htake_ne, ?_, ?_, ?_, ?_⟩
    · exact (List.takeWhile_sublist _).subset (List.getLast_mem htake_ne)
    · unfold _get_prev_cell
      rw [prevCellLoop_eq, hTs]
      rfl
    · have := List.mem_takeWhile_imp (List.getLast_mem htake_ne)
      simpa using this
    · intro x hx hxlt
      rcases List.mem_append.mp
          ((List.takeWhile_append_dropWhile (p := fun b => decide (b < r))
            (l := B)) ▸ hx) with hmem | hmem
      · exact sorted_le_getLast (sorted_takeWhile_le hsorted) x hmem _ hTs
      · have := sorted_dropWhile_not (decide_lt_mono r) B hsorted x hmem
        simp at this
        omega
  · intro hall
    have hT : B.takeWhile (fun b => b < r) = [] := by
      cases B with
      | nil => rfl
      | cons c cs =>
        have := hall c (by simp)
        rw [List.takeWhile_cons_of_neg (by simp; omega)]
    unfold _get_prev_cell
    rw [prevCellLoop_eq, hT]
    rfl

/-- Witness for C6 at `B = [1, 4, 7]` with `r = 4` (exactly on a
boundary, returning the previous cell's start 1) and `r = 1` (no previous
boundary, no-op). -/
theorem C6_witness :
    (∃ m ∈ ([1, 4, 7] : List Int), _get_prev_cell 4 [1, 4, 7] = m ∧
      m < 4 ∧ ∀ x ∈ ([1, 4, 7] : List Int), x < 4 → x ≤ m) ∧
      _get_prev_cell 1 [1, 4, 7] = 1 :=
  ⟨(C6_prev_cell [1, 4, 7] 4 (by decide)).1 (by decide),
    (C6_prev_cell [1, 4, 7] 1 (by decide)).2 (by decide)⟩

/-- C7: for every sorted boundary list `B` and row `r`, `_get_next_cell`
returns the smallest member of `B` strictly greater than `r`, and `r`
unchanged when no such member exists; hence from any row at or beyond the
last boundary every number of repeated calls returns the same row
(idempotent no-op at the last cell). -/
theorem C7_next_cell (B : List Int) (r : Int) (hsorted : B.Sorted (· ≤ ·)) :
    ((∃ b ∈ B, r < b) →
      ∃ m ∈ B, _get_next_cell r B = m ∧ r < m ∧ ∀ x ∈ B, r < x → m ≤ x) ∧
      ((∀ b ∈ B, b ≤ r) →
        _get_next_cell r B = r ∧
          ∀ n : Nat, (fun row => _get_next_cell row B)^[n] r = r) := by
  constructor
  · intro hex
    obtain ⟨b0, hb0m, hb0lt⟩ := hex
    cases hD : B.dropWhile (fun b => b ≤ r) with
    | nil =>
      have := List.dropWhile_eq_nil_iff.mp hD b0 hb0m
      simp at this
      omega
    | cons m rest =>
      have hmB : m ∈ B :=
        (List.dropWhile_sublist _).subset (by rw [hD]; simp)
      have hrm : r < m := by
        have := sorted_dropWhile_not (decide_le_mono r) B hsorted m
          (by rw [hD]; simp)
        simp at this
        omega
      refine ⟨m, hmB, ?_, hrm, ?_⟩
      · unfold _get_next_cell
        rw [nextCellLoop_eq, hD]
        rfl
      · intro x hx hrx
        rcases List.mem_append.mp
            ((List.takeWhile_append_dropWhile (p := fun b => decide (b ≤ r))
              (l := B)) ▸ hx) with hmem | hmem
        · have := List.mem_takeWhile_imp hmem
          simp at this
          omega
        · rw [hD] at hmem
          have hsD : (m :: rest).Sorted (· ≤ ·) :=
            hD ▸ sorted_dropWhile_sorted hsorted
          exact sorted_cons_head_le hsD x hmem
  · intro hall
    have hfix : _get_next_cell r B = r := by
      have hD : B.dropWhile (fun b => b ≤ r) = [] :=
        List.dropWhile_eq_nil_iff.mpr (fun x hx => by simpa using hall x hx)
      unfold _get_next_cell
      rw [nextCellLoop_eq, hD]
      rfl
    refine ⟨hfix, ?_⟩
    intro n
    induction n with
    | zero => rfl
    | succ k ih => rw [Function.iterate_succ_apply, hfix, ih]

/-- Witness for C7 at `B = [1, 4, 7]` with `r = 5` (next cell starts at
7) and `r = 7` (the last boundary: repeated calls are a no-op). -/
theorem C7_witness :
    (∃ m ∈ ([1, 4, 7] : List Int), _get_next_cell 5 [1, 4, 7] = m ∧
      5 < m ∧ ∀ x ∈ ([1, 4, 7] : List Int), 5 < x → m ≤ x) ∧
      _get_next_cell 7 [1, 4, 7] = 7 ∧
      ∀ n : Nat, (fun row => _get_next_cell row [1, 4, 7])^[n] 7 = 7 :=
  ⟨(C7_next_cell [1, 4, 7] 5 (by decide)).1 (by decide),
    (C7_next_cell [1, 4, 7] 7 (by decide)).2 (by decide)⟩

/-! ### Lemmas for the tag strategy and `sorted(set(...))` -/

lemma mem_insertSortedDedup (x a : Int) :
    ∀ l : List Int, a ∈ insertSortedDedup x l ↔ a = x ∨ a ∈ l := by
  intro l
  induction l with
  | nil => simp [insertSortedDedup]
  | cons y ys ih =>
    simp only [insertSortedDedup]
    split
    · simp [List.mem_cons]
    · split
      · rename_i h1 h2
        subst h2
        simp [List.mem_cons]
      · simp only [List.mem_cons, ih]
        tauto

lemma sorted_insertSortedDedup (x : Int) :
    ∀ l : List Int, l.Sorted (· < ·) →
      (insertSortedDedup x l).Sorted (· < ·) := by
  intro l
  induction l with
  | nil => intro _; simp [insertSortedDedup]
  | cons y ys ih =>
    intro hs
    rcases List.sorted_cons.mp hs with ⟨hy, hys⟩
    simp only [insertSortedDedup]
    split
    · rename_i h1
      rw [List.sorted_cons]
      refine ⟨?_, hs⟩
      intro b hb
      rcases List.mem_cons.mp hb with h2 | h2
      · omega
      · have := hy b h2
        omega
    · split
      · exact hs
      · rename_i h1 h2
        rw [List.sorted_cons]
        refine ⟨?_, ih hys⟩
        intro b hb
        rw [mem_insertSortedDedup] at hb
        rcases hb with h3 | h3
        · omega
        · exact hy b h3

lemma pySortedSet_sorted : ∀ l : List Int, (pySortedSet l).Sorted (· < ·) := by
  intro l
  induction l with
  | nil => simp [pySortedSet]
  | cons x xs ih =>
    simp only [pySortedSet, List.foldr_cons] at ih ⊢
    exact sorted_insertSortedDedup x _ ih

lemma mem_pySortedSet (a : Int) : ∀ l : List Int, a ∈ pySortedSet l ↔ a ∈ l := by
  intro l
  induction l with
  | nil => simp [pySortedSet]
  | cons x xs ih =>
    simp only [pySortedSet, List.foldr_cons] at ih ⊢
    rw [mem_insertSortedDedup]
    simp only [List.mem_cons, ih]

lemma mem_rowsWithTagAux (tags : List String) (useRegex : Bool)
    (search : String → String → Bool) :
    ∀ (rest : List String) (i : Nat) (r : Int),
      r ∈ rowsWithTagAux tags useRegex search i rest ↔
        ∃ j line, rest[j]? = some line ∧ r = ((i + j : Nat) : Int) + 1 ∧
          tags.any (fun tag => tagFound useRegex search tag line) = true := by
  intro rest
  induction rest with
  | nil => intro i r; simp [rowsWithTagAux]
  | cons line rest ih =>
    intro i r
    by_cases hfound : tags.any (fun tag => tagFound useRegex search tag line) = true
    · rw [show rowsWithTagAux tags useRegex search i (line :: rest)
          = ((i : Int) + 1) :: rowsWithTagAux tags useRegex search (i + 1) rest
        from by simp [rowsWithTagAux, hfound]]
      simp only [List.mem_cons, ih (i + 1)]
      constructor
      · rintro (h1 | ⟨j, l2, hj, hr, hf⟩)
        · exact ⟨0, line, by simp, by push_cast; omega, hfound⟩
        · exact ⟨j + 1, l2, by simpa using hj, by push_cast at hr ⊢; omega, hf⟩
      · rintro ⟨j, l2, hj, hr, hf⟩
        cases j with
        | zero =>
          left
          push_cast at hr
          omega
        | succ k =>
          right
          exact ⟨k, l2, by simpa using hj, by push_cast at hr ⊢; omega, hf⟩
    · rw [show rowsWithTagAux tags useRegex search i (line :: rest)
          = rowsWithTagAux tags useRegex search (i + 1) rest
        from by simp [rowsWithTagAux, hfound]]
      rw [ih (i + 1)]
      constructor
      · rintro ⟨j, l2, hj, hr, hf⟩
        exact ⟨j + 1, l2, by simpa using hj, by push_cast at hr ⊢; omega, hf⟩
      · rintro ⟨j, l2, hj, hr, hf⟩
        cases j with
        | zero =>
          simp at hj
          subst hj
          exact absurd hf hfound
        | succ k =>
          exact ⟨k, l2, by simpa using hj, by push_cast at hr ⊢; omega, hf⟩

lemma sorted_rowsWithTagAux (tags : List String) (useRegex : Bool)
    (search : String → String → Bool) :
    ∀ (rest : List String) (i : Nat),
      (rowsWithTagAux tags useRegex search i rest).Sorted (· < ·) ∧
        ∀ x ∈ rowsWithTagAux tags useRegex search i rest, (i : Int) < x := by
  intro rest
  induction rest with
  | nil => intro i; simp [rowsWithTagAux]
  | cons line rest ih =>
    intro i
    by_cases hfound : tags.any (fun tag => tagFound useRegex search tag line) = true
    · rw [show rowsWithTagAux tags useRegex search i (line :: rest)
          = ((i : Int) + 1) :: rowsWithTagAux tags useRegex search (i + 1) rest
        from by simp [rowsWithTagAux, hfound]]
      obtain ⟨hs, hb⟩ := ih (i + 1)
      refine ⟨?_, ?_⟩
      · rw [List.sorted_cons]
        refine ⟨?_, hs⟩
        intro x hx
        have := hb x hx
        push_cast at this ⊢
        omega
      · intro x hx
        rcases List.mem_cons.mp hx with h1 | h1
        · omega
        · have := hb x h1
          push_cast at this ⊢
          omega
    · rw [show rowsWithTagAux tags useRegex search i (line :: rest)
          = rowsWithTagAux tags useRegex search (i + 1) rest
        from by simp [rowsWithTagAux, hfound]]
      obtain ⟨hs, hb⟩ := ih (i + 1)
      refine ⟨hs, ?_⟩
      intro x hx
      have := hb x hx
      push_cast at this ⊢
      omega

/-- C8: under the tags strategy each document line is scanned once: row
`j + 1` is marked iff some configured tag occurs in line `j` (literal
substring, or a successful `search` in regex mode), with at most one
boundary entry per line (the row list is strictly increasing); every
boundary set the function returns is sorted ascending with no duplicates;
and on the concrete scenario `["x", "# cell", "y", "# cell", "z"]` with
tag `"# cell"` and the first line included, the boundaries are
`{1, 2, 4}`. -/
theorem C8_tags_boundaries :
    (∀ (buffer tags : List String) (useRegex : Bool)
        (search : String → String → Bool) (r : Int),
        r ∈ _get_rows_with_tag buffer tags useRegex search ↔
          ∃ (j : Nat) (line : String), buffer[j]? = some line ∧
            r = (j : Int) + 1 ∧
            tags.any (fun tag => tagFound useRegex search tag line) = true) ∧
      (∀ (buffer tags : List String) (useRegex : Bool)
          (search : String → String → Bool),
          (_get_rows_with_tag buffer tags useRegex search).Sorted (· < ·)) ∧
      (∀ (buffer : List String) (delimiter validMarks : String)
          (markOf : Char → Option (Int × Int)) (tags : List String)
          (regexOption : String) (search : String → String → Bool)
          (auto : Bool) (l : List Int),
          _get_cell_boundaries buffer delimiter validMarks markOf tags
              regexOption search auto = some l →
            l.Sorted (· < ·) ∧
              ∀ x : Int, x ∈ l ↔
                x ∈ (_get_cell_boundaries buffer delimiter validMarks markOf
                  tags regexOption search auto).getD []) ∧
      _get_cell_boundaries ["x", "# cell", "y", "# cell", "z"] "tags" ""
        (fun _ => none) ["# cell"] "0" (fun _ _ => false) true
        = some [1, 2, 4] := by
  refine ⟨?_, ?_, ?_, by decide⟩
  · intro buffer tags useRegex search r
    rw [show _get_rows_with_tag buffer tags useRegex search
        = rowsWithTagAux tags useRegex search 0 buffer from rfl]
    rw [mem_rowsWithTagAux]
    constructor
    · rintro ⟨j, line, hj, hr, hf⟩
      exact ⟨j, line, hj, by push_cast at hr ⊢; omega, hf⟩
    · rintro ⟨j, line, hj, hr, hf⟩
      exact ⟨j, line, hj, by push_cast at hr ⊢; omega, hf⟩
  · intro buffer tags useRegex search
    exact (sorted_rowsWithTagAux tags useRegex search buffer 0).1
  · intro buffer delimiter validMarks markOf tags regexOption search auto l h
    have hsorted : l.Sorted (· < ·) := by
      unfold _get_cell_boundaries at h
      split at h
      · exact (Option.some.inj h) ▸ pySortedSet_sorted _
      · split at h
        · exact (Option.some.inj h) ▸ pySortedSet_sorted _
        · exact absurd h (by simp)
    refine ⟨hsorted, ?_⟩
    intro x
    rw [h]
    rfl

/-- Witness for C8: row 2 carries the tag in the scenario buffer, and the
boundary set computed there is strictly sorted. -/
theorem C8_witness :
    (2 : Int) ∈ _get_rows_with_tag ["x", "# cell", "y", "# cell", "z"]
        ["# cell"] false (fun _ _ => false) ∧
      ([1, 2, 4] : List Int).Sorted (· < ·) :=
  ⟨(C8_tags_boundaries.1 ["x", "# cell", "y", "# cell", "z"] ["# cell"]
      false (fun _ _ => false) 2).mpr
      ⟨1, "# cell", by decide, by decide, by decide⟩,
    (C8_tags_boundaries.2.2.1 ["x", "# cell", "y", "# cell", "z"] "tags" ""
      (fun _ => none) ["# cell"] "0" (fun _ _ => false) true [1, 2, 4]
      C8_tags_boundaries.2.2.2).1⟩

/-! ### The socket transport -/

/-- CPython's UTF-8 encoder `str.encode("utf_8")` for a single character
(scalar values only: `Char` excludes surrogates, which CPython's strict
encoder rejects as well); bytes are `Nat` below 256. -/
def utf8EncodeCharNat (c : Char) : List Nat :=
  let n := c.toNat
  if n < 0x80 then [n]
  else if n < 0x800 then [0xc0 + n / 0x40, 0x80 + n % 0x40]
  else if n < 0x10000 then
    [0xe0 + n / 0x1000, 0x80 + n / 0x40 % 0x40, 0x80 + n % 0x40]
  else
    [0xf0 + n / 0x40000, 0x80 + n / 0x1000 % 0x40, 0x80 + n / 0x40 % 0x40,
      0x80 + n % 0x40]

/-- `string.encode("utf_8")`. -/
def pyEncodeUtf8 (s : String) : List Nat :=
  s.data.flatMap utf8EncodeCharNat

/-- `sendterm_by_socket` of `src/python/ipython_cell.py:677-692`,
modelled by the sequence of byte payloads handed to `termsock.send`:
nothing when `len(string) <= 0`; otherwise the UTF-8 bytes of the text,
followed by one encoded NUL unless the text's last character
(`string[-1]`) is already NUL.  The `is_socket_closed` probe and the
transparent reconnection manage the connection, not the bytes sent, and
stay outside the model. -/
def sendterm_by_socket (string : String) : List (List Nat) :=
  if string.length ≤ 0 then []
  else
    [pyEncodeUtf8 string] ++
      (if string.data.getLast? ≠ some '\x00' then [pyEncodeUtf8 "\x00"]
        else [])

-- sanity checks
example : sendterm_by_socket "hi" = [[104, 105], [0]] := by decide
example : sendterm_by_socket "hi\x00" = [[104, 105, 0]] := by decide
example : sendterm_by_socket "" = [] := by decide

lemma string_ne_empty_data {s : String} (h : s ≠ "") : s.data ≠ [] := by
  intro he
  exact h (by cases s; simp_all)

lemma sendterm_not_le_zero {s : String} (h : s ≠ "") : ¬ s.length ≤ 0 := by
  have hd := string_ne_empty_data h
  simp only [String.length, Nat.le_zero, List.length_eq_zero]
  exact hd

/-- C9: the socket send operation is a no-op for empty text; for every
non-empty text it sends the UTF-8 encoded bytes of the text and then one
NUL byte as message terminator, unless the text already ends with a NUL
character, in which case no extra byte is sent; either way the emitted
byte stream ends with a single `0x00`. -/
theorem C9_socket_send :
    sendterm_by_socket "" = [] ∧
      (∀ s : String, s ≠ "" → s.data.getLast? ≠ some '\x00' →
        sendterm_by_socket s = [pyEncodeUtf8 s, [0]]) ∧
      (∀ s : String, s ≠ "" → s.data.getLast? = some '\x00' →
        sendterm_by_socket s = [pyEncodeUtf8 s]) ∧
      ∀ s : String, s ≠ "" →
        ((sendterm_by_socket s).flatten).getLast? = some 0 := by
  have h2 : ∀ s : String, s ≠ "" → s.data.getLast? ≠ some '\x00' →
      sendterm_by_socket s = [pyEncodeUtf8 s, [0]] := by
    intro s h1 hlast
    rw [sendterm_by_socket, if_neg (sendterm_not_le_zero h1), if_pos hlast]
    rw [show pyEncodeUtf8 "\x00" = [0] from by decide]
    rfl
  have h3 : ∀ s : String, s ≠ "" → s.data.getLast? = some '\x00' →
      sendterm_by_socket s = [pyEncodeUtf8 s] := by
    intro s h1 hlast
    rw [sendterm_by_socket, if_neg (sendterm_not_le_zero h1),
      if_neg (not_not_intro hlast)]
    rfl
  refine ⟨by decide, h2, h3, ?_⟩
  intro s h1
  by_cases hlast : s.data.getLast? = some '\x00'
  · rw [h3 s h1 hlast]
    have hrepr := List.dropLast_append_getLast? _ hlast
    simp only [List.flatten_cons, List.flatten_nil, List.append_nil]
    rw [show pyEncodeUtf8 s
        = (s.data.dropLast).flatMap utf8EncodeCharNat ++ utf8EncodeCharNat '\x00'
      from by
        conv_lhs => rw [pyEncodeUtf8, ← hrepr]
        simp [List.flatMap_append]]
    rw [show utf8EncodeCharNat '\x00' = [0] from by decide]
    exact List.getLast?_concat _
  · rw [h2 s h1 hlast]
    simp only [List.flatten_cons, List.flatten_nil, List.append_nil]
    exact List.getLast?_concat _

/-- Witness for C9 at the inputs `"hi"` and `"hi\x00"`. -/
theorem C9_witness :
    sendterm_by_socket "hi" = [pyEncodeUtf8 "hi", [0]] ∧
      sendterm_by_socket "hi\x00" = [pyEncodeUtf8 "hi\x00"] ∧
      ((sendterm_by_socket "hi").flatten).getLast? = some 0 :=
  ⟨C9_socket_send.2.1 "hi" (by decide) (by decide),
    C9_socket_send.2.2.1 "hi\x00" (by decide) (by decide),
    C9_socket_send.2.2.2 "hi" (by decide)⟩
